import Mathlib

/-! Verification of the grid-backtest engine `run_strategy_logic` of
`a股非对称牛市网格策略.py` against its specification.

The engine is embedded shallowly: Python float arithmetic is modelled by
exact rational arithmetic over `ℚ`.  The only place where IEEE special
values can arise is the maximum-drawdown computation
`np.nanmin((h_arr - peak) / peak)`, where a zero running peak produces
`±inf` or `NaN`; these are modelled by `XFloat := WithTop (WithBot ℚ)`
(`⊥` = `-inf`, `⊤` = `+inf`) together with `Option` (`none` = `NaN`).
The Python function raises `IndexError` on an empty price series (at
`prices[-1]`); this is modelled by an `Option` result. -/

/-- Extended rationals: `⊥` models IEEE `-inf` and `⊤` models `+inf`. -/
abbrev XFloat : Type := WithTop (WithBot ℚ)

/-- A finite extended value. -/
def XFloat.fin (q : ℚ) : XFloat := ((q : WithBot ℚ) : XFloat)

/-- The `-inf` extended value. -/
def XFloat.ninf : XFloat := ((⊥ : WithBot ℚ) : XFloat)

/-- IEEE division `n / d` as numpy performs it on float scalars:
ordinary division for `d ≠ 0`, and for `d = 0` the result is `NaN`
(modelled by `none`) when `n = 0`, `-inf` when `n < 0`, `+inf` when
`n > 0`. -/
def floatDiv (n d : ℚ) : Option XFloat :=
  if d = 0 then
    if n = 0 then none
    else if n < 0 then some XFloat.ninf
    else some ⊤
  else some (XFloat.fin (n / d))

/-- `np.nanmin`: the minimum of the non-`NaN` entries, and `NaN`
(`none`) when every entry is `NaN`. -/
def nanmin (l : List (Option XFloat)) : Option XFloat :=
  match l.filterMap id with
  | [] => none
  | x :: xs => some (xs.foldl min x)

/-- `np.maximum.accumulate`: the running prefix maximum. -/
def prefixMax (l : List ℚ) : List ℚ :=
  match l with
  | [] => []
  | x :: xs => List.scanl max x xs

/-- `changes = np.insert(np.diff(prices) / prices[:-1], 0, 0)`:
a leading `0`, followed by the day-over-day relative changes. -/
def changes (prices : List ℚ) : List ℚ :=
  0 :: (prices.zip prices.tail).map (fun pr => (pr.2 - pr.1) / pr.1)

/-- The mutable state of the backtest loop of `run_strategy_logic`:
`cash, shares = 0, 0.0`, the buy/sell counters and the `history` list. -/
structure LoopState where
  cash : ℚ
  shares : ℚ
  b_cnt : ℕ
  s_cnt : ℕ
  history : List ℚ
  deriving DecidableEq, Repr

/-- The initial loop state. -/
def initState : LoopState :=
  { cash := 0, shares := 0, b_cnt := 0, s_cnt := 0, history := [] }

/-- One iteration of the `for p, c in zip(prices, changes)` loop:
buy when `c <= -b_pct/100`, otherwise sell when `c >= s_pct/100 and
shares > 0` (capped at the held value), otherwise do nothing; in every
case append `shares * p + cash` computed from the post-trade state. -/
def stepDay (b_pct s_pct amt : ℚ) (st : LoopState) (day : ℚ × ℚ) : LoopState :=
  let p := day.1
  let c := day.2
  let st' :=
    if c ≤ -b_pct / 100 then
      { st with shares := st.shares + amt / p, cash := st.cash - amt, b_cnt := st.b_cnt + 1 }
    else if s_pct / 100 ≤ c ∧ 0 < st.shares then
      let val := min amt (st.shares * p)
      { st with shares := st.shares - val / p, cash := st.cash + val, s_cnt := st.s_cnt + 1 }
    else st
  { st' with history := st'.history ++ [st'.shares * p + st'.cash] }

/-- The whole backtest loop of `run_strategy_logic`. -/
def runLoop (b_pct s_pct amt : ℚ) (prices : List ℚ) : LoopState :=
  (prices.zip (changes prices)).foldl (stepDay b_pct s_pct amt) initState

/-- The loop state after processing the first `n` days. -/
def stateAfter (b_pct s_pct amt : ℚ) (prices : List ℚ) (n : ℕ) : LoopState :=
  ((prices.zip (changes prices)).take n).foldl (stepDay b_pct s_pct amt) initState

/-- The tuple returned by `run_strategy_logic`:
`history, df.index, b_cnt, s_cnt, cum_ret, mdd, win_rate, shares * prices[-1]`. -/
structure Result where
  history : List ℚ
  dates : List ℕ
  b_cnt : ℕ
  s_cnt : ℕ
  cum_ret : ℚ
  mdd : Option XFloat
  win_rate : ℚ
  final_pos : ℚ
  deriving DecidableEq, Repr

/-- The engine `run_strategy_logic(df, b_pct, s_pct, amt)`.  The data
frame is modelled by its index (`dfDates`) and its `Close` column
(`dfClose`).  The Python code raises `IndexError` at `prices[-1]` when
the series is empty, so the result is `none` exactly in that case. -/
def run_strategy_logic (dfDates : List ℕ) (dfClose : List ℚ) (b_pct s_pct amt : ℚ) :
    Option Result :=
  let prices := dfClose
  match prices.getLast? with
  | none => none
  | some plast =>
    let st := runLoop b_pct s_pct amt prices
    let h := st.history
    let win_rate : ℚ :=
      if 1 < h.length then
        (((h.zip h.tail).countP fun pr => decide (pr.1 < pr.2) : ℕ) : ℚ) / ((h.length : ℚ) - 1)
      else 0
    let total_inv : ℚ := (st.b_cnt : ℚ) * amt
    let cum_ret : ℚ := if 0 < total_inv then h.getLast?.getD 0 / total_inv - 1 else 0
    let peak := prefixMax h
    let mdd : Option XFloat :=
      if peak.any (fun q => decide (q ≠ 0)) then
        nanmin ((h.zip peak).map fun pr => floatDiv (pr.1 - pr.2) pr.2)
      else some (XFloat.fin 0)
    some { history := h, dates := dfDates, b_cnt := st.b_cnt, s_cnt := st.s_cnt,
           cum_ret := cum_ret, mdd := mdd, win_rate := win_rate,
           final_pos := st.shares * plast }

/-- The numeric outputs of the engine: every returned component except
the pass-through date index. -/
def numericPart (r : Result) : List ℚ × ℕ × ℕ × ℚ × Option XFloat × ℚ × ℚ :=
  (r.history, r.b_cnt, r.s_cnt, r.cum_ret, r.mdd, r.win_rate, r.final_pos)

/-! ### Structural lemmas about the loop -/

theorem days_length (prices : List ℚ) :
    (prices.zip (changes prices)).length = prices.length := by
  cases prices with
  | nil => rfl
  | cons p ps => simp [changes]

theorem days_cons (p : ℚ) (ps : List ℚ) :
    (p :: ps).zip (changes (p :: ps)) =
      (p, 0) :: ps.zip (((p :: ps).zip ps).map (fun pr => (pr.2 - pr.1) / pr.1)) := by
  simp [changes]

theorem stateAfter_succ (b s amt : ℚ) (prices : List ℚ) (i : ℕ)
    (hi : i < (prices.zip (changes prices)).length) :
    stateAfter b s amt prices (i + 1) =
      stepDay b s amt (stateAfter b s amt prices i)
        ((prices.zip (changes prices)).get ⟨i, hi⟩) := by
  unfold stateAfter
  rw [List.take_succ, List.getElem?_eq_getElem hi, List.foldl_append]
  rfl

theorem stateAfter_of_le (b s amt : ℚ) (prices : List ℚ) (n : ℕ)
    (hn : (prices.zip (changes prices)).length ≤ n) :
    stateAfter b s amt prices n = runLoop b s amt prices := by
  unfold stateAfter runLoop
  rw [List.take_of_length_le hn]

theorem stepDay_history (b s amt : ℚ) (st : LoopState) (day : ℚ × ℚ) :
    (stepDay b s amt st day).history =
      st.history ++
        [(stepDay b s amt st day).shares * day.1 + (stepDay b s amt st day).cash] := by
  unfold stepDay
  dsimp only
  split_ifs <;> rfl

theorem foldl_history_length (b s amt : ℚ) :
    ∀ (l : List (ℚ × ℚ)) (st : LoopState),
      ((l.foldl (stepDay b s amt) st).history).length = st.history.length + l.length := by
  intro l
  induction l with
  | nil => intro st; simp
  | cons d l ih =>
    intro st
    rw [List.foldl_cons, ih, stepDay_history]
    simp
    omega

theorem foldl_history_append (b s amt : ℚ) :
    ∀ (l : List (ℚ × ℚ)) (st : LoopState),
      ∃ t, ((l.foldl (stepDay b s amt) st).history) = st.history ++ t := by
  intro l
  induction l with
  | nil => intro st; exact ⟨[], by simp⟩
  | cons d l ih =>
    intro st
    obtain ⟨t, ht⟩ := ih (stepDay b s amt st d)
    rw [List.foldl_cons, ht, stepDay_history]
    exact ⟨((stepDay b s amt st d).shares * d.1 + (stepDay b s amt st d).cash) :: t, by simp⟩

theorem stepDay_counters (b s amt : ℚ) (st : LoopState) (day : ℚ × ℚ) :
    (stepDay b s amt st day).b_cnt + (stepDay b s amt st day).s_cnt ≤
      st.b_cnt + st.s_cnt + 1 := by
  unfold stepDay
  dsimp only
  split_ifs <;> simp <;> omega

theorem foldl_counters (b s amt : ℚ) :
    ∀ (l : List (ℚ × ℚ)) (st : LoopState),
      (l.foldl (stepDay b s amt) st).b_cnt + (l.foldl (stepDay b s amt) st).s_cnt ≤
        st.b_cnt + st.s_cnt + l.length := by
  intro l
  induction l with
  | nil => intro st; simp
  | cons d l ih =>
    intro st
    rw [List.foldl_cons]
    calc (l.foldl (stepDay b s amt) (stepDay b s amt st d)).b_cnt +
          (l.foldl (stepDay b s amt) (stepDay b s amt st d)).s_cnt ≤
        (stepDay b s amt st d).b_cnt + (stepDay b s amt st d).s_cnt + l.length := ih _
      _ ≤ st.b_cnt + st.s_cnt + 1 + l.length := by
          have := stepDay_counters b s amt st d
          omega
      _ = st.b_cnt + st.s_cnt + (d :: l).length := by simp; omega

theorem stepDay_init_day0 (b s amt p : ℚ) (hb : 0 < b) :
    stepDay b s amt initState (p, 0) =
      { cash := 0, shares := 0, b_cnt := 0, s_cnt := 0, history := [0] } := by
  have h1 : ¬ ((0 : ℚ) ≤ -b / 100) := by
    rw [not_le]
    linarith
  unfold stepDay initState
  simp [h1]

theorem runLoop_cons_history (b s amt p : ℚ) (ps : List ℚ) (hb : 0 < b) :
    ∃ t, (runLoop b s amt (p :: ps)).history = 0 :: t := by
  unfold runLoop
  rw [days_cons, List.foldl_cons, stepDay_init_day0 b s amt p hb]
  obtain ⟨t, ht⟩ := foldl_history_append b s amt
    (ps.zip (((p :: ps).zip ps).map (fun pr => (pr.2 - pr.1) / pr.1)))
    { cash := 0, shares := 0, b_cnt := 0, s_cnt := 0, history := [0] }
  exact ⟨t, by rw [ht]; rfl⟩

theorem runLoop_history_length (b s amt : ℚ) (prices : List ℚ) :
    (runLoop b s amt prices).history.length = prices.length := by
  unfold runLoop
  rw [foldl_history_length, days_length]
  simp [initState]

/-! ### Lemmas about `prefixMax`, `floatDiv` and `nanmin` -/

theorem XFloat.ninf_le_fin (q : ℚ) : XFloat.ninf ≤ XFloat.fin q := by
  unfold XFloat.ninf XFloat.fin
  exact WithTop.coe_le_coe.mpr bot_le

theorem XFloat.fin_le_fin {a b : ℚ} (h : a ≤ b) : XFloat.fin a ≤ XFloat.fin b := by
  unfold XFloat.fin
  exact WithTop.coe_le_coe.mpr (WithBot.coe_le_coe.mpr h)

theorem XFloat.ninf_ne_fin (q : ℚ) : XFloat.ninf ≠ XFloat.fin q := by
  unfold XFloat.ninf XFloat.fin
  intro hcon
  exact WithBot.bot_ne_coe (WithTop.coe_eq_coe.mp hcon)

theorem prefixMax_length (l : List ℚ) : (prefixMax l).length = l.length := by
  cases l with
  | nil => rfl
  | cons x xs => simp [prefixMax, List.length_scanl]

theorem zip_scanl_max (l : List ℚ) :
    ∀ (y bd : ℚ), y ≤ bd →
      ∀ pr ∈ (y :: l).zip (List.scanl max bd l), pr.1 ≤ pr.2 ∧ bd ≤ pr.2 := by
  induction l with
  | nil =>
    intro y bd hy pr hpr
    simp [List.scanl_nil] at hpr
    subst hpr
    exact ⟨hy, le_refl bd⟩
  | cons a m ih =>
    intro y bd hy pr hpr
    rw [List.scanl_cons, List.singleton_append, List.zip_cons_cons] at hpr
    rcases List.mem_cons.mp hpr with h | h
    · subst h
      exact ⟨hy, le_refl bd⟩
    · obtain ⟨h1, h2⟩ := ih a (max bd a) (le_max_right bd a) pr h
      exact ⟨h1, le_trans (le_max_left bd a) h2⟩

theorem zip_prefixMax_bounds (x : ℚ) (xs : List ℚ) :
    ∀ pr ∈ (x :: xs).zip (prefixMax (x :: xs)), pr.1 ≤ pr.2 ∧ x ≤ pr.2 := by
  unfold prefixMax
  exact zip_scanl_max xs x x (le_refl x)

theorem scanl_max_of_chain :
    ∀ (l : List ℚ) (bd : ℚ), List.Chain (· ≤ ·) bd l → List.scanl max bd l = bd :: l := by
  intro l
  induction l with
  | nil => intro bd _; rfl
  | cons a m ih =>
    intro bd hc
    rw [List.chain_cons] at hc
    rw [List.scanl_cons, max_eq_right hc.1, ih a hc.2]
    rfl

theorem prefixMax_of_chain (x : ℚ) (xs : List ℚ)
    (h : List.Chain' (· ≤ ·) (x :: xs)) : prefixMax (x :: xs) = x :: xs := by
  unfold prefixMax
  exact scanl_max_of_chain xs x h

theorem zip_self_eq (l : List ℚ) : ∀ pr ∈ l.zip l, pr.1 = pr.2 := by
  induction l with
  | nil => intro pr hpr; simp at hpr
  | cons a m ih =>
    intro pr hpr
    rw [List.zip_cons_cons] at hpr
    rcases List.mem_cons.mp hpr with h | h
    · subst h; rfl
    · exact ih pr h

theorem foldl_min_le {α : Type} [LinearOrder α] (c : α) :
    ∀ (xs : List α) (x : α), x ≤ c → (∀ y ∈ xs, y ≤ c) → xs.foldl min x ≤ c := by
  intro xs
  induction xs with
  | nil => intro x hx _; exact hx
  | cons a m ih =>
    intro x hx hall
    rw [List.foldl_cons]
    exact ih (min x a) (le_trans (min_le_left x a) hx)
      (fun y hy => hall y (List.mem_cons_of_mem a hy))

theorem foldl_min_const {α : Type} [LinearOrder α] (c : α) :
    ∀ (xs : List α) (x : α), x = c → (∀ y ∈ xs, y = c) → xs.foldl min x = c := by
  intro xs
  induction xs with
  | nil => intro x hx _; exact hx
  | cons a m ih =>
    intro x hx hall
    rw [List.foldl_cons]
    have ha : a = c := hall a (List.mem_cons_self a m)
    rw [hx, ha, min_self]
    exact ih c rfl (fun y hy => hall y (List.mem_cons_of_mem a hy))

theorem nanmin_eq (l : List (Option XFloat)) (x : XFloat) (xs : List XFloat)
    (h : l.filterMap id = x :: xs) : nanmin l = some (xs.foldl min x) := by
  unfold nanmin
  rw [h]

theorem nanmin_some_le (l : List (Option XFloat)) (c y : XFloat)
    (hy : y ∈ l.filterMap id) (hall : ∀ x ∈ l.filterMap id, x ≤ c) :
    ∃ m, nanmin l = some m ∧ m ≤ c := by
  cases hfm : l.filterMap id with
  | nil => rw [hfm] at hy; simp at hy
  | cons x xs =>
    rw [hfm] at hall
    refine ⟨xs.foldl min x, nanmin_eq l x xs hfm, ?_⟩
    exact foldl_min_le c xs x (hall x (List.mem_cons_self x xs))
      (fun z hz => hall z (List.mem_cons_of_mem x hz))

theorem nanmin_const (l : List (Option XFloat)) (c y : XFloat)
    (hy : y ∈ l.filterMap id) (hall : ∀ x ∈ l.filterMap id, x = c) :
    nanmin l = some c := by
  cases hfm : l.filterMap id with
  | nil => rw [hfm] at hy; simp at hy
  | cons x xs =>
    rw [hfm] at hall
    rw [nanmin_eq l x xs hfm,
      foldl_min_const c xs x (hall x (List.mem_cons_self x xs))
        (fun z hz => hall z (List.mem_cons_of_mem x hz))]

theorem getLast?_cons_ex {α : Type} (p : α) (ps : List α) :
    ∃ q, (p :: ps).getLast? = some q := by
  induction ps generalizing p with
  | nil => exact ⟨p, rfl⟩
  | cons a m ih =>
    obtain ⟨q, hq⟩ := ih a
    exact ⟨q, by rw [List.getLast?_cons_cons, hq]⟩

/-! ### Claim theorems -/

/-- Claim C1: the engine processes days in chronological order, and on
each day `i` with price `p` and change `c`: if `c ≤ -buyDropPct/100` it
buys (`shares` grows by `tradeAmount/p`, `cash` shrinks by `tradeAmount`,
the buy counter increments, with no funds check); else if
`c ≥ sellRisePct/100` and `shares > 0` it sells
`sellValue = min(tradeAmount, shares*p)` (shares shrink by `sellValue/p`,
cash grows by `sellValue`, sell counter increments); else the state is
unchanged; and in every case the appended equity value is
`shares * p + cash` of the post-trade state of day `i`. -/
theorem c1_trade_rule (b s amt : ℚ) (prices : List ℚ) (i : ℕ)
    (hi : i < (prices.zip (changes prices)).length) (p c : ℚ)
    (hday : (prices.zip (changes prices)).get ⟨i, hi⟩ = (p, c))
    (pre post : LoopState)
    (hpre : pre = stateAfter b s amt prices i)
    (hpost : post = stateAfter b s amt prices (i + 1)) :
    (c ≤ -b / 100 →
      post.shares = pre.shares + amt / p ∧ post.cash = pre.cash - amt ∧
      post.b_cnt = pre.b_cnt + 1 ∧ post.s_cnt = pre.s_cnt) ∧
    (¬ c ≤ -b / 100 → s / 100 ≤ c → 0 < pre.shares →
      post.shares = pre.shares - min amt (pre.shares * p) / p ∧
      post.cash = pre.cash + min amt (pre.shares * p) ∧
      post.s_cnt = pre.s_cnt + 1 ∧ post.b_cnt = pre.b_cnt) ∧
    (¬ c ≤ -b / 100 → ¬ (s / 100 ≤ c ∧ 0 < pre.shares) →
      post.shares = pre.shares ∧ post.cash = pre.cash ∧
      post.b_cnt = pre.b_cnt ∧ post.s_cnt = pre.s_cnt) ∧
    post.history = pre.history ++ [post.shares * p + post.cash] := by
  subst hpre hpost
  rw [stateAfter_succ b s amt prices i hi, hday]
  unfold stepDay
  dsimp only
  refine ⟨?_, ?_, ?_, ?_⟩
  · intro hbuy
    rw [if_pos hbuy]
    exact ⟨rfl, rfl, rfl, rfl⟩
  · intro hnb hsell hsh
    rw [if_neg hnb, if_pos ⟨hsell, hsh⟩]
    exact ⟨rfl, rfl, rfl, rfl⟩
  · intro hnb hns
    rw [if_neg hnb, if_neg hns]
    exact ⟨rfl, rfl, rfl, rfl⟩
  · split_ifs <;> rfl

theorem c1_trade_rule_witness :
    (stateAfter 1 (3/2) 1000 [100, 99] 2).shares =
      (stateAfter 1 (3/2) 1000 [100, 99] 1).shares + 1000 / 99 ∧
    (stateAfter 1 (3/2) 1000 [100, 99] 2).cash =
      (stateAfter 1 (3/2) 1000 [100, 99] 1).cash - 1000 ∧
    (stateAfter 1 (3/2) 1000 [100, 99] 2).b_cnt =
      (stateAfter 1 (3/2) 1000 [100, 99] 1).b_cnt + 1 ∧
    (stateAfter 1 (3/2) 1000 [100, 99] 2).s_cnt =
      (stateAfter 1 (3/2) 1000 [100, 99] 1).s_cnt ∧
    (stateAfter 1 (3/2) 1000 [100, 99] 2).history =
      (stateAfter 1 (3/2) 1000 [100, 99] 1).history ++
        [(stateAfter 1 (3/2) 1000 [100, 99] 2).shares * 99 +
          (stateAfter 1 (3/2) 1000 [100, 99] 2).cash] := by
  have h := c1_trade_rule 1 (3/2) 1000 [100, 99] 1 (by rw [days_length]; norm_num) 99 (-1/100)
    (by norm_num [changes]) _ _ rfl rfl
  obtain ⟨h1, h2, h3, h4⟩ := h.1 (by norm_num)
  exact ⟨h1, h2, h3, h4, h.2.2.2⟩

/-- Claim C8: with strictly positive thresholds, `change[0]` is defined
as `0` and day 0 never trades: after processing only index 0 both
counters are `0` and the portfolio state is unchanged, with appended
equity `0`. -/
theorem c8_day0_no_trade (b s amt p : ℚ) (ps : List ℚ) (hb : 0 < b) (hs : 0 < s) :
    (changes (p :: ps)).head? = some 0 ∧
    stateAfter b s amt (p :: ps) 1 =
      { cash := 0, shares := 0, b_cnt := 0, s_cnt := 0, history := [0] } := by
  refine ⟨rfl, ?_⟩
  unfold stateAfter
  rw [days_cons, List.take_succ_cons, List.take_zero, List.foldl_cons, List.foldl_nil]
  exact stepDay_init_day0 b s amt p hb

theorem c8_day0_no_trade_witness :
    (changes [100, 99]).head? = some 0 ∧
    stateAfter 1 (3/2) 1000 [100, 99] 1 =
      { cash := 0, shares := 0, b_cnt := 0, s_cnt := 0, history := [0] } :=
  c8_day0_no_trade 1 (3/2) 1000 100 [99] (by norm_num) (by norm_num)

theorem stepDay_shares_nonneg (b s amt : ℚ) (st : LoopState) (day : ℚ × ℚ)
    (hp : 0 < day.1) (ha : 0 < amt) (hsh : 0 ≤ st.shares) :
    0 ≤ (stepDay b s amt st day).shares := by
  unfold stepDay
  dsimp only
  split_ifs with h1 h2
  · show 0 ≤ st.shares + amt / day.1
    have : 0 ≤ amt / day.1 := le_of_lt (div_pos ha hp)
    linarith
  · show 0 ≤ st.shares - min amt (st.shares * day.1) / day.1
    have hmin : min amt (st.shares * day.1) ≤ st.shares * day.1 := min_le_right _ _
    have hdiv : min amt (st.shares * day.1) / day.1 ≤ st.shares * day.1 / day.1 :=
      (div_le_div_right hp).mpr hmin
    have hcan : st.shares * day.1 / day.1 = st.shares :=
      mul_div_cancel_right₀ st.shares (ne_of_gt hp)
    linarith
  · exact hsh

theorem foldl_shares_nonneg (b s amt : ℚ) (ha : 0 < amt) :
    ∀ (l : List (ℚ × ℚ)) (st : LoopState), (∀ d ∈ l, 0 < d.1) → 0 ≤ st.shares →
      0 ≤ (l.foldl (stepDay b s amt) st).shares := by
  intro l
  induction l with
  | nil => intro st _ h; exact h
  | cons d l ih =>
    intro st hl hsh
    rw [List.foldl_cons]
    exact ih (stepDay b s amt st d) (fun e he => hl e (List.mem_cons_of_mem d he))
      (stepDay_shares_nonneg b s amt st d (hl d (List.mem_cons_self d l)) ha hsh)

/-- Claim C4: for positive prices and a positive trade amount, the
post-trade share count is non-negative after every day of the backtest
pass (a sell is capped by the current holding value, so the position is
never shorted). -/
theorem c4_shares_nonneg (b s amt : ℚ) (prices : List ℚ)
    (hp : ∀ p ∈ prices, 0 < p) (ha : 0 < amt) (n : ℕ) :
    0 ≤ (stateAfter b s amt prices n).shares := by
  unfold stateAfter
  apply foldl_shares_nonneg b s amt ha
  · intro d hd
    have hd' : d ∈ prices.zip (changes prices) := List.take_subset n _ hd
    obtain ⟨a, c⟩ := d
    exact hp a (List.of_mem_zip hd').1
  · norm_num [initState]

theorem c4_shares_nonneg_witness :
    0 ≤ (stateAfter 1 (3/2) 1000 [100, 99] 2).shares :=
  c4_shares_nonneg 1 (3/2) 1000 [100, 99]
    (by intro p hp; rcases List.mem_cons.mp hp with h | h
        · rw [h]; norm_num
        · rw [List.mem_singleton.mp h]; norm_num)
    (by norm_num) 2

/-- Claim C9: for a series of at least one observation and strictly
positive thresholds, at most one trade happens per day and none on day
0, so the final buy count plus sell count is at most `N - 1`; and the
equity trajectory has exactly `N` entries. -/
theorem c9_trade_count_bound (d : List ℕ) (prices : List ℚ) (b s amt : ℚ)
    (hb : 0 < b) (hs : 0 < s) (hne : prices ≠ []) :
    ∃ r, run_strategy_logic d prices b s amt = some r ∧
      r.b_cnt + r.s_cnt ≤ prices.length - 1 ∧
      r.history.length = prices.length := by
  match prices, hne with
  | p :: ps, _ =>
    obtain ⟨q, hq⟩ := getLast?_cons_ex p ps
    unfold run_strategy_logic
    dsimp only
    rw [hq]
    refine ⟨_, rfl, ?_, ?_⟩
    · show (runLoop b s amt (p :: ps)).b_cnt + (runLoop b s amt (p :: ps)).s_cnt ≤ _
      unfold runLoop
      rw [days_cons, List.foldl_cons, stepDay_init_day0 b s amt p hb]
      have h := foldl_counters b s amt
        (ps.zip (((p :: ps).zip ps).map (fun pr => (pr.2 - pr.1) / pr.1)))
        { cash := 0, shares := 0, b_cnt := 0, s_cnt := 0, history := [0] }
      have hlen : (ps.zip (((p :: ps).zip ps).map (fun pr => (pr.2 - pr.1) / pr.1))).length =
          ps.length := by
        simp
      rw [hlen] at h
      simpa using h
    · show (runLoop b s amt (p :: ps)).history.length = _
      exact runLoop_history_length b s amt (p :: ps)

theorem c9_trade_count_bound_witness :
    ∃ r, run_strategy_logic [7] [100, 99] 1 (3/2) 1000 = some r ∧
      r.b_cnt + r.s_cnt ≤ [(100 : ℚ), 99].length - 1 ∧
      r.history.length = [(100 : ℚ), 99].length :=
  c9_trade_count_bound [7] [100, 99] 1 (3/2) 1000 (by norm_num) (by norm_num) (by simp)

/-- Claim C10: the engine's numeric outputs depend only on the price
sequence and the parameters, not on the date index (which is passed
through unused), and running the engine twice on the same input yields
identical results. -/
theorem c10_dates_unused (d1 d2 : List ℕ) (prices : List ℚ) (b s amt : ℚ) :
    (run_strategy_logic d1 prices b s amt).map numericPart =
      (run_strategy_logic d2 prices b s amt).map numericPart ∧
    run_strategy_logic d1 prices b s amt = run_strategy_logic d1 prices b s amt := by
  refine ⟨?_, rfl⟩
  unfold run_strategy_logic
  dsimp only
  cases prices.getLast? <;> rfl

/-- Counterexample to claim C2: a non-positive `tradeAmount` (here
`-1000`) is not rejected; the engine silently produces a complete
result, trajectory and statistics included. -/
theorem c2_counterexample :
    run_strategy_logic [] [100, 99] 1 (3/2) (-1000) =
      some { history := [0, 0], dates := [], b_cnt := 1, s_cnt := 0, cum_ret := 0,
             mdd := some (XFloat.fin 0), win_rate := 0, final_pos := -1000 } := by
  norm_num [run_strategy_logic, runLoop, changes, stepDay, initState, prefixMax, nanmin,
    floatDiv, List.getLast?_cons_cons, List.getLast?_singleton, List.scanl_cons,
    List.scanl_nil, List.countP_cons, List.countP_nil, List.any_cons, List.any_nil,
    max_self, XFloat.fin]

/-- Amended claim C2: the engine performs no validation of prices,
thresholds or trade amount — it produces a (possibly meaningless)
result for any such input — and it fails to return a result exactly
when the price series is empty (an index error at `prices[-1]`). -/
theorem c2_no_validation (d : List ℕ) (prices : List ℚ) (b s amt : ℚ) :
    run_strategy_logic d prices b s amt = none ↔ prices = [] := by
  constructor
  · intro h
    cases prices with
    | nil => rfl
    | cons p ps =>
      obtain ⟨q, hq⟩ := getLast?_cons_ex p ps
      unfold run_strategy_logic at h
      dsimp only at h
      rw [hq] at h
      exact absurd h (by simp)
  · rintro rfl
    rfl

/-- Counterexample to claim C3: on a price series with zero
observations and valid parameters the engine does not return a
zero-trade result with trajectory `[0]`; it fails (index error at
`prices[-1]`), so no result is produced at all. -/
theorem c3_counterexample :
    run_strategy_logic [] [] 1 (3/2) 1000 = none := rfl

/-- Amended claim C3: on a price series with exactly one observation
and valid parameters the engine does not fail: it returns a result with
zero buys, zero sells and equity trajectory `[0]`; on a series with
zero observations it fails and returns no result. -/
theorem c3_singleton_series (d : List ℕ) (p b s amt : ℚ) (hb : 0 < b) (hs : 0 < s)
    (ha : 0 < amt) (hp : 0 < p) :
    run_strategy_logic d [p] b s amt =
      some { history := [0], dates := d, b_cnt := 0, s_cnt := 0, cum_ret := 0,
             mdd := some (XFloat.fin 0), win_rate := 0, final_pos := 0 } ∧
    run_strategy_logic d [] b s amt = none := by
  have h1 : ¬ ((0 : ℚ) ≤ -b / 100) := by rw [not_le]; linarith
  refine ⟨?_, rfl⟩
  unfold run_strategy_logic runLoop changes stepDay initState
  norm_num [h1, prefixMax, nanmin, List.scanl_nil]

theorem c3_singleton_series_witness :
    run_strategy_logic [3] [100] 1 (3/2) 1000 =
      some { history := [0], dates := [3], b_cnt := 0, s_cnt := 0, cum_ret := 0,
             mdd := some (XFloat.fin 0), win_rate := 0, final_pos := 0 } ∧
    run_strategy_logic [3] [] 1 (3/2) 1000 = none :=
  c3_singleton_series [3] 100 1 (3/2) 1000 (by norm_num) (by norm_num) (by norm_num)
    (by norm_num)

/-- Claim C6: for a valid nonempty input, the cumulative return equals
`E[N-1] / (buyCount * tradeAmount) - 1` whenever
`buyCount * tradeAmount > 0`, and equals exactly `0` when
`buyCount = 0` (no division by zero occurs). -/
theorem c6_cum_ret (d : List ℕ) (prices : List ℚ) (b s amt : ℚ)
    (hb : 0 < b) (hs : 0 < s) (ha : 0 < amt) (hne : prices ≠ []) :
    ∃ r, run_strategy_logic d prices b s amt = some r ∧
      (0 < (r.b_cnt : ℚ) * amt →
        r.cum_ret = r.history.getLast?.getD 0 / ((r.b_cnt : ℚ) * amt) - 1) ∧
      (r.b_cnt = 0 → r.cum_ret = 0) := by
  match prices, hne with
  | p :: ps, _ =>
    obtain ⟨q, hq⟩ := getLast?_cons_ex p ps
    unfold run_strategy_logic
    dsimp only
    rw [hq]
    refine ⟨_, rfl, ?_, ?_⟩
    · intro hpos
      dsimp only at hpos ⊢
      rw [if_pos hpos]
    · intro h0
      dsimp only at h0 ⊢
      rw [h0]
      norm_num

theorem c6_cum_ret_witness :
    ∃ r, run_strategy_logic [] [100, 99] 1 (3/2) 1000 = some r ∧
      (0 < (r.b_cnt : ℚ) * 1000 →
        r.cum_ret = r.history.getLast?.getD 0 / ((r.b_cnt : ℚ) * 1000) - 1) ∧
      (r.b_cnt = 0 → r.cum_ret = 0) :=
  c6_cum_ret [] [100, 99] 1 (3/2) 1000 (by norm_num) (by norm_num) (by norm_num) (by simp)

/-- Claim C7: for a valid nonempty input of `N` observations, the win
rate is the number of consecutive-day pairs with `E[i] > E[i-1]`
divided by `N - 1`, it is `0` when `N ≤ 1`, and it always lies in
`[0, 1]`. -/
theorem c7_win_rate (d : List ℕ) (prices : List ℚ) (b s amt : ℚ)
    (hb : 0 < b) (hs : 0 < s) (ha : 0 < amt) (hne : prices ≠ []) :
    ∃ r, run_strategy_logic d prices b s amt = some r ∧
      r.history.length = prices.length ∧
      (1 < prices.length →
        r.win_rate = (((r.history.zip r.history.tail).countP
          fun pr => decide (pr.1 < pr.2) : ℕ) : ℚ) / ((prices.length : ℚ) - 1)) ∧
      (prices.length ≤ 1 → r.win_rate = 0) ∧
      0 ≤ r.win_rate ∧ r.win_rate ≤ 1 := by
  match prices, hne with
  | p :: ps, _ =>
    obtain ⟨q, hq⟩ := getLast?_cons_ex p ps
    have hlen := runLoop_history_length b s amt (p :: ps)
    unfold run_strategy_logic
    dsimp only
    rw [hq]
    refine ⟨_, rfl, hlen, ?_, ?_, ?_, ?_⟩
    · intro hN
      dsimp only
      rw [hlen, if_pos hN]
    · intro hN1
      dsimp only
      rw [hlen, if_neg (by omega : ¬ 1 < (p :: ps).length)]
    · dsimp only
      rw [hlen]
      by_cases hN : 1 < (p :: ps).length
      · rw [if_pos hN]
        have h1 : (1 : ℚ) < ((p :: ps).length : ℚ) := by exact_mod_cast hN
        apply div_nonneg (by positivity) (by linarith)
      · rw [if_neg hN]
    · dsimp only
      rw [hlen]
      by_cases hN : 1 < (p :: ps).length
      · rw [if_pos hN]
        have h1 : (1 : ℚ) < ((p :: ps).length : ℚ) := by exact_mod_cast hN
        rw [div_le_one (by linarith)]
        have hc : ((runLoop b s amt (p :: ps)).history.zip
            (runLoop b s amt (p :: ps)).history.tail).countP
            (fun pr => decide (pr.1 < pr.2)) ≤ (p :: ps).length - 1 := by
          refine le_trans (List.countP_le_length _) (le_of_eq ?_)
          rw [List.length_zip, List.length_tail, hlen]
          omega
        have hcq : (((runLoop b s amt (p :: ps)).history.zip
            (runLoop b s amt (p :: ps)).history.tail).countP
            (fun pr => decide (pr.1 < pr.2)) : ℚ) ≤ (((p :: ps).length - 1 : ℕ) : ℚ) := by
          exact_mod_cast hc
        have hcast : (((p :: ps).length - 1 : ℕ) : ℚ) = ((p :: ps).length : ℚ) - 1 := by
          rw [Nat.cast_sub (by omega : 1 ≤ (p :: ps).length)]
          norm_num
        linarith
      · rw [if_neg hN]
        norm_num

theorem c7_win_rate_witness :
    ∃ r, run_strategy_logic [] [100, 99] 1 (3/2) 1000 = some r ∧
      r.history.length = [(100 : ℚ), 99].length ∧
      (1 < [(100 : ℚ), 99].length →
        r.win_rate = (((r.history.zip r.history.tail).countP
          fun pr => decide (pr.1 < pr.2) : ℕ) : ℚ) / (([(100 : ℚ), 99].length : ℚ) - 1)) ∧
      ([(100 : ℚ), 99].length ≤ 1 → r.win_rate = 0) ∧
      0 ≤ r.win_rate ∧ r.win_rate ≤ 1 :=
  c7_win_rate [] [100, 99] 1 (3/2) 1000 (by norm_num) (by norm_num) (by norm_num) (by simp)

/-- Counterexample to claim C5: on prices `[100, 99, 50, 100]` with
`buyDropPct = 1`, `sellRisePct = 1.5`, `tradeAmount = 1000` the running
peak contains `0` (it is `[0, 0, 0, 100000/99]`), yet `maxDrawdown` is
not `0`: the entry with zero peak and negative equity makes `nanmin`
return `-inf`. -/
theorem c5_counterexample :
    ∃ r, run_strategy_logic [] [100, 99, 50, 100] 1 (3/2) 1000 = some r ∧
      (0 : ℚ) ∈ prefixMax r.history ∧
      r.mdd = some XFloat.ninf ∧ r.mdd ≠ some (XFloat.fin 0) := by
  have hrun : run_strategy_logic [] [100, 99, 50, 100] 1 (3/2) 1000 =
      some { history := [0, 0, -49000/99, 100000/99], dates := [], b_cnt := 2, s_cnt := 1,
             cum_ret := -49/99, mdd := some XFloat.ninf, win_rate := 1/3,
             final_pos := 199000/99 } := by
    norm_num [run_strategy_logic, runLoop, changes, stepDay, initState, prefixMax, nanmin,
      floatDiv, List.getLast?_cons_cons, List.getLast?_singleton, List.scanl_cons,
      List.scanl_nil, List.countP_cons, List.countP_nil, List.any_cons, List.any_nil,
      List.filterMap_cons, List.filterMap_nil, max_self, XFloat.fin, XFloat.ninf, max_def,
      min_def, min_eq_left (XFloat.ninf_le_fin 0)]
  refine ⟨_, hrun, ?_, rfl, ?_⟩
  · show (0 : ℚ) ∈ prefixMax [0, 0, -49000/99, 100000/99]
    norm_num [prefixMax, List.scanl_cons, List.scanl_nil, max_def]
  · show some XFloat.ninf ≠ some (XFloat.fin 0)
    exact fun hcon => XFloat.ninf_ne_fin 0 (Option.some.inj hcon)

theorem mdd_some_le_zero (t : List ℚ) :
    ∃ m, (if (prefixMax (0 :: t)).any (fun q => decide (q ≠ 0)) then
        nanmin (((0 :: t).zip (prefixMax (0 :: t))).map fun pr => floatDiv (pr.1 - pr.2) pr.2)
      else some (XFloat.fin 0)) = some m ∧ m ≤ XFloat.fin 0 := by
  by_cases hany : (prefixMax (0 :: t)).any (fun q => decide (q ≠ 0))
  · rw [if_pos hany]
    have hbounds := zip_prefixMax_bounds 0 t
    have hall : ∀ x ∈ ((((0 :: t)).zip (prefixMax (0 :: t))).map
        fun pr => floatDiv (pr.1 - pr.2) pr.2).filterMap id, x ≤ XFloat.fin 0 := by
      intro x hx
      obtain ⟨a, ha, hax⟩ := List.mem_filterMap.mp hx
      obtain ⟨pr, hpr, hfa⟩ := List.mem_map.mp ha
      obtain ⟨h1, h2⟩ := hbounds pr hpr
      rw [← hfa] at hax
      unfold floatDiv at hax
      by_cases hd : pr.2 = 0
      · rw [if_pos hd] at hax
        by_cases hn : pr.1 - pr.2 = 0
        · rw [if_pos hn] at hax
          exact absurd hax (by simp)
        · have hlt : pr.1 - pr.2 < 0 := lt_of_le_of_ne (by linarith) hn
          rw [if_neg hn, if_pos hlt] at hax
          have hxv : x = XFloat.ninf := (Option.some.inj hax).symm
          rw [hxv]
          exact XFloat.ninf_le_fin 0
      · rw [if_neg hd] at hax
        have hxv : x = XFloat.fin ((pr.1 - pr.2) / pr.2) := (Option.some.inj hax).symm
        rw [hxv]
        apply XFloat.fin_le_fin
        have hdpos : 0 < pr.2 := lt_of_le_of_ne h2 (Ne.symm hd)
        exact div_nonpos_of_nonpos_of_nonneg (by linarith) (le_of_lt hdpos)
    obtain ⟨z, hzmem, hz0⟩ := List.any_eq_true.mp hany
    have hz0' : z ≠ 0 := of_decide_eq_true hz0
    obtain ⟨⟨i, hilt⟩, hget⟩ := List.mem_iff_get.mp hzmem
    have hpl : (prefixMax (0 :: t)).length = (0 :: t).length := prefixMax_length (0 :: t)
    have hiz : i < ((0 :: t).zip (prefixMax (0 :: t))).length := by
      rw [List.length_zip, hpl, min_self]
      rw [← hpl]
      exact hilt
    have hsnd : (((0 :: t).zip (prefixMax (0 :: t))).get ⟨i, hiz⟩).2 = z := by
      rw [List.get_zip]
      exact hget
    have hpr_mem : ((0 :: t).zip (prefixMax (0 :: t))).get ⟨i, hiz⟩ ∈
        (0 :: t).zip (prefixMax (0 :: t)) := List.get_mem _ _ _
    have hfd : floatDiv ((((0 :: t).zip (prefixMax (0 :: t))).get ⟨i, hiz⟩).1 -
          (((0 :: t).zip (prefixMax (0 :: t))).get ⟨i, hiz⟩).2)
          ((((0 :: t).zip (prefixMax (0 :: t))).get ⟨i, hiz⟩).2) =
        some (XFloat.fin (((((0 :: t).zip (prefixMax (0 :: t))).get ⟨i, hiz⟩).1 -
          (((0 :: t).zip (prefixMax (0 :: t))).get ⟨i, hiz⟩).2) /
          ((((0 :: t).zip (prefixMax (0 :: t))).get ⟨i, hiz⟩).2))) := by
      unfold floatDiv
      rw [if_neg (by rw [hsnd]; exact hz0')]
    have hmem2 : XFloat.fin (((((0 :: t).zip (prefixMax (0 :: t))).get ⟨i, hiz⟩).1 -
          (((0 :: t).zip (prefixMax (0 :: t))).get ⟨i, hiz⟩).2) /
          ((((0 :: t).zip (prefixMax (0 :: t))).get ⟨i, hiz⟩).2)) ∈
        ((((0 :: t)).zip (prefixMax (0 :: t))).map
          fun pr => floatDiv (pr.1 - pr.2) pr.2).filterMap id := by
      apply List.mem_filterMap.mpr
      refine ⟨floatDiv ((((0 :: t).zip (prefixMax (0 :: t))).get ⟨i, hiz⟩).1 -
          (((0 :: t).zip (prefixMax (0 :: t))).get ⟨i, hiz⟩).2)
          ((((0 :: t).zip (prefixMax (0 :: t))).get ⟨i, hiz⟩).2),
        List.mem_map_of_mem _ hpr_mem, ?_⟩
      rw [hfd]
      rfl
    exact nanmin_some_le _ (XFloat.fin 0) _ hmem2 hall
  · rw [if_neg hany]
    exact ⟨XFloat.fin 0, rfl, le_refl _⟩

theorem mdd_of_monotone (t : List ℚ) (hchain : List.Chain' (· ≤ ·) (0 :: t)) :
    (if (prefixMax (0 :: t)).any (fun q => decide (q ≠ 0)) then
        nanmin (((0 :: t).zip (prefixMax (0 :: t))).map fun pr => floatDiv (pr.1 - pr.2) pr.2)
      else some (XFloat.fin 0)) = some (XFloat.fin 0) := by
  have hpm : prefixMax (0 :: t) = 0 :: t := prefixMax_of_chain 0 t hchain
  by_cases hany : (prefixMax (0 :: t)).any (fun q => decide (q ≠ 0))
  · rw [if_pos hany, hpm]
    have hall : ∀ x ∈ (((0 :: t).zip (0 :: t)).map
        fun pr => floatDiv (pr.1 - pr.2) pr.2).filterMap id, x = XFloat.fin 0 := by
      intro x hx
      obtain ⟨a, ha, hax⟩ := List.mem_filterMap.mp hx
      obtain ⟨pr, hpr, hfa⟩ := List.mem_map.mp ha
      have heq : pr.1 = pr.2 := zip_self_eq (0 :: t) pr hpr
      have hnum : pr.1 - pr.2 = 0 := by rw [heq]; ring
      rw [← hfa] at hax
      unfold floatDiv at hax
      by_cases hd : pr.2 = 0
      · rw [if_pos hd, if_pos hnum] at hax
        exact absurd hax (by simp)
      · rw [if_neg hd] at hax
        have hxv : x = XFloat.fin ((pr.1 - pr.2) / pr.2) := (Option.some.inj hax).symm
        rw [hxv, hnum, zero_div]
    obtain ⟨z, hzmem, hz0⟩ := List.any_eq_true.mp hany
    rw [hpm] at hzmem
    have hz0' : z ≠ 0 := of_decide_eq_true hz0
    obtain ⟨⟨i, hilt⟩, hget⟩ := List.mem_iff_get.mp hzmem
    have hiz : i < ((0 :: t).zip (0 :: t)).length := by
      rw [List.length_zip, min_self]
      exact hilt
    have hpr_mem : ((0 :: t).zip (0 :: t)).get ⟨i, hiz⟩ ∈ (0 :: t).zip (0 :: t) :=
      List.get_mem _ _ _
    have hsnd : (((0 :: t).zip (0 :: t)).get ⟨i, hiz⟩).2 = z := by
      rw [List.get_zip]
      exact hget
    have heq2 : (((0 :: t).zip (0 :: t)).get ⟨i, hiz⟩).1 =
        (((0 :: t).zip (0 :: t)).get ⟨i, hiz⟩).2 := zip_self_eq (0 :: t) _ hpr_mem
    have hfd : floatDiv ((((0 :: t).zip (0 :: t)).get ⟨i, hiz⟩).1 -
          (((0 :: t).zip (0 :: t)).get ⟨i, hiz⟩).2)
          ((((0 :: t).zip (0 :: t)).get ⟨i, hiz⟩).2) = some (XFloat.fin 0) := by
      unfold floatDiv
      rw [if_neg (by rw [hsnd]; exact hz0')]
      rw [heq2, sub_self, zero_div]
    have hmem2 : XFloat.fin 0 ∈ (((0 :: t).zip (0 :: t)).map
        fun pr => floatDiv (pr.1 - pr.2) pr.2).filterMap id := by
      apply List.mem_filterMap.mpr
      refine ⟨floatDiv ((((0 :: t).zip (0 :: t)).get ⟨i, hiz⟩).1 -
          (((0 :: t).zip (0 :: t)).get ⟨i, hiz⟩).2)
          ((((0 :: t).zip (0 :: t)).get ⟨i, hiz⟩).2),
        List.mem_map_of_mem _ hpr_mem, ?_⟩
      rw [hfd]
      rfl
    exact nanmin_const _ (XFloat.fin 0) (XFloat.fin 0) hmem2 hall
  · rw [if_neg hany]

theorem mdd_of_zero_peak (h : List ℚ) (hz : ∀ pk ∈ prefixMax h, pk = 0) :
    (if (prefixMax h).any (fun q => decide (q ≠ 0)) then
        nanmin ((h.zip (prefixMax h)).map fun pr => floatDiv (pr.1 - pr.2) pr.2)
      else some (XFloat.fin 0)) = some (XFloat.fin 0) := by
  have hfalse : (prefixMax h).any (fun q => decide (q ≠ 0)) = false := by
    rw [List.any_eq_false]
    intro x hx
    simp [hz x hx]
  rw [hfalse]
  simp

/-- Amended claim C5: for a valid nonempty input, `maxDrawdown` is a
non-`NaN` extended value `≤ 0` (possibly `-inf`); it equals `0` whenever
the equity trajectory is monotonically non-decreasing; and it is defined
as `0` when the running peak is identically zero (`peak.any()` false) —
not merely when the running peak is ever `0`, in which case the
zero-peak entries are skipped as `NaN` or contribute `-inf`. -/
theorem c5_mdd_properties (d : List ℕ) (prices : List ℚ) (b s amt : ℚ)
    (hb : 0 < b) (hs : 0 < s) (ha : 0 < amt) (hp : ∀ p ∈ prices, 0 < p)
    (hne : prices ≠ []) :
    ∃ r, run_strategy_logic d prices b s amt = some r ∧
      (∃ m, r.mdd = some m ∧ m ≤ XFloat.fin 0) ∧
      (List.Chain' (· ≤ ·) r.history → r.mdd = some (XFloat.fin 0)) ∧
      ((∀ pk ∈ prefixMax r.history, pk = 0) → r.mdd = some (XFloat.fin 0)) := by
  match prices, hne with
  | p :: ps, _ =>
    obtain ⟨q, hq⟩ := getLast?_cons_ex p ps
    obtain ⟨t, ht⟩ := runLoop_cons_history b s amt p ps hb
    unfold run_strategy_logic
    dsimp only
    rw [hq]
    refine ⟨_, rfl, ?_, ?_, ?_⟩
    · dsimp only
      rw [ht]
      exact mdd_some_le_zero t
    · intro hchain
      dsimp only at hchain ⊢
      rw [ht] at hchain ⊢
      exact mdd_of_monotone t hchain
    · intro hzero
      dsimp only at hzero ⊢
      rw [ht] at hzero ⊢
      exact mdd_of_zero_peak (0 :: t) hzero

theorem c5_mdd_properties_witness :
    ∃ r, run_strategy_logic [] [100, 99] 1 (3/2) 1000 = some r ∧
      (∃ m, r.mdd = some m ∧ m ≤ XFloat.fin 0) ∧
      (List.Chain' (· ≤ ·) r.history → r.mdd = some (XFloat.fin 0)) ∧
      ((∀ pk ∈ prefixMax r.history, pk = 0) → r.mdd = some (XFloat.fin 0)) :=
  c5_mdd_properties [] [100, 99] 1 (3/2) 1000 (by norm_num) (by norm_num) (by norm_num)
    (by intro x hx
        rcases List.mem_cons.mp hx with h | h
        · rw [h]; norm_num
        · rw [List.mem_singleton.mp h]; norm_num)
    (by simp)
